import Mathlib

/-!
Shallow embedding of the `cbuffer` SPSC magic-ring byte queue
(`src/cbuffer_raw.rs`, the module exported by `src/lib.rs`).

Modelling conventions:
* The double-mapped 2N-byte virtual region is modelled by a logical byte
  store `mem : Nat → Nat` of the N physical ring bytes; an access at a
  virtual address `a ∈ [0, 2N)` touches `mem (a % N)` (the mirror mapping
  aliases the same physical pages).  An access at an address `≥ 2N` leaves
  the mapped region and is modelled as the error `RtErr.oob`.
* `head` and `tail` are the `AtomicCell<u32>` counters.  Stores that can
  exceed `u32` range in Rust (`(len + head) as u32` in `poll`) are reduced
  `% 2^32`; the two tail stores in `offer` are exact because in their
  branches the stored value is `≤ capacity < 2^32` (`(x % capacity) as u32`
  and, in the else branch, `tail + size ≤ capacity`).
* Rust `usize` subtractions that can underflow (a program error: panic in
  debug builds) are modelled by `checkedSub`, and slice indexing
  out of bounds (`readable_slice()[..len]` with `len > used()`, a panic in
  all builds) by the error `RtErr.sliceOOB`.  All other arithmetic in the
  hot path stays in range, as noted inline.
* `mmap` construction is modelled on its success path: anonymous shared
  pages are zero-filled, so `with_capacity` yields a zeroed ring with
  `head = tail = 0` (the `Default::default()` of `AtomicCell<u32>`).
* The `Sender`/`Receiver` endpoints both hold `Arc<UnsafeCell<CBuffer>>`
  aliases of one `CBuffer`; this shared mutable cell is modelled by
  threading the single `CBuffer` state explicitly through their methods.
-/

def U32M : Nat := 4294967296

inductive RtErr where
  | underflow
  | sliceOOB
  | oob
deriving DecidableEq

structure CBuffer where
  capacity : Nat
  mem : Nat → Nat
  head : Nat
  tail : Nat

inductive BufferSize where
  | Buf64M
  | Buf128M
  | Buf256M
  | Buf512M

/-- Capacity selected by `CBuffer::with_capacity`'s `match` on `BufferSize`. -/
def BufferSize.bytes : BufferSize → Nat
  | .Buf64M => 64 * 1024 * 1024
  | .Buf128M => 128 * 1024 * 1024
  | .Buf256M => 256 * 1024 * 1024
  | .Buf512M => 512 * 1024 * 1024

/-- `CBuffer::with_capacity`, success path of the three `mmap` calls:
anonymous pages are zero-filled, `head`/`tail` start at `Default::default() = 0`. -/
def CBuffer.with_capacity (s : BufferSize) : CBuffer :=
  { capacity := s.bytes, mem := fun _ => 0, head := 0, tail := 0 }

/-- Rust `usize` subtraction `a - b` (underflow is a program error). -/
def checkedSub (a b : Nat) : Except RtErr Nat :=
  if b ≤ a then .ok (a - b) else .error .underflow

/-- `CBuffer::used`. -/
def CBuffer.used (c : CBuffer) : Except RtErr Nat :=
  if c.head ≤ c.tail then .ok (c.tail - c.head)
  else checkedSub c.capacity (c.head - c.tail)

/-- `CBuffer::unused`: `self.capacity - self.used()`. -/
def CBuffer.unused (c : CBuffer) : Except RtErr Nat :=
  (c.used).bind fun u => checkedSub c.capacity u

/-- `CBuffer::size`. -/
def CBuffer.size (c : CBuffer) : Nat := c.capacity

/-- `CBuffer::is_empty`: `self.tail.load() == self.head.load()`. -/
def CBuffer.is_empty (c : CBuffer) : Bool := c.tail == c.head

/-- `transform_u32_to_array_of_u8` (`LittleEndian::write_u32`); the per-byte
`% 256` reductions also absorb the `as u32` cast at the call site. -/
def transform_u32_to_array_of_u8 (x : Nat) : List Nat :=
  [x % 256, x / 256 % 256, x / 65536 % 256, x / 16777216 % 256]

/-- `transform_array_of_u8_to_u32` (`LittleEndian::read_u32`), applied in
`pop` to the 4-byte list produced by `poll(4)`. -/
def transform_array_of_u8_to_u32 (l : List Nat) : Nat :=
  l.getD 0 0 + 256 * l.getD 1 0 + 65536 * l.getD 2 0 + 16777216 * l.getD 3 0

/-- One byte stored through the double map: virtual address `a` aliases
physical index `a % cap`. -/
def writeByte (mem : Nat → Nat) (cap a v : Nat) : Nat → Nat :=
  fun i => if i = a % cap then v else mem i

/-- `writable_slice()[..size].copy_from_slice(data)`: byte-wise copy of
`data` to virtual addresses `[a, a + data.length)`.  In `offer` these
addresses stay below `2 * capacity` (`tail ≤ capacity` and
`data.length < unused() ≤ capacity`), so no mapping check is needed. -/
def writeBytes (mem : Nat → Nat) (cap a : Nat) : List Nat → (Nat → Nat)
  | [] => mem
  | v :: rest => writeBytes (writeByte mem cap a v) cap (a + 1) rest

/-- One byte loaded through the double map; an address outside the
2N-byte mapped range is undefined behaviour (`RtErr.oob`). -/
def readByte (c : CBuffer) (a : Nat) : Except RtErr Nat :=
  if a < 2 * c.capacity then .ok (c.mem (a % c.capacity)) else .error .oob

/-- `readable_slice()[..len].to_vec()`: byte-wise load of `len` bytes from
virtual addresses `[a, a + len)`. -/
def readBytes (c : CBuffer) (a : Nat) : Nat → Except RtErr (List Nat)
  | 0 => .ok []
  | len + 1 =>
    (readByte c a).bind fun b =>
      (readBytes c (a + 1) len).bind fun rest => .ok (b :: rest)

/-- `CBuffer::offer`.  The two `tail` stores are `u32` casts of values
`≤ capacity < 2^32`, hence exact. -/
def CBuffer.offer (c : CBuffer) (data : List Nat) : Except RtErr (Bool × CBuffer) :=
  (c.unused).bind fun un =>
    if un ≤ data.length then .ok (false, c)
    else
      let mem' := writeBytes c.mem c.capacity c.tail data
      if c.capacity < c.tail + data.length then
        .ok (true, { c with mem := mem', tail := (c.tail + data.length) % c.capacity })
      else
        .ok (true, { c with mem := mem', tail := c.tail + data.length })

/-- `CBuffer::push`: space check, then `offer` of the 4-byte length prefix
(first result discarded), then `offer` of the payload, whose result is
returned. -/
def CBuffer.push (c : CBuffer) (data : List Nat) : Except RtErr (Bool × CBuffer) :=
  (c.unused).bind fun un =>
    if un ≤ data.length + 4 then .ok (false, c)
    else
      (c.offer (transform_u32_to_array_of_u8 data.length)).bind fun r =>
        r.2.offer data

/-- `CBuffer::poll`.  `readable_slice()` has length `used()` (whose
computation can underflow), `[..len]` panics when `len > used()`, and the
head store `(len + head) as u32` truncates modulo `2^32`. -/
def CBuffer.poll (c : CBuffer) (len : Nat) : Except RtErr (Option (List Nat) × CBuffer) :=
  if c.is_empty then .ok (none, c)
  else
    (c.used).bind fun u =>
      if u < len then .error .sliceOOB
      else
        (readBytes c c.head len).bind fun r =>
          .ok (some r, { c with head := (len + c.head) % U32M })

/-- `CBuffer::pop`: emptiness check, `poll(4)`, decode the little-endian
length, `poll(size)`. -/
def CBuffer.pop (c : CBuffer) : Except RtErr (Option (List Nat) × CBuffer) :=
  if c.is_empty then .ok (none, c)
  else
    (c.poll 4).bind fun lr =>
      match lr.1 with
      | some l => lr.2.poll (transform_array_of_u8_to_u32 l)
      | none => .ok (none, lr.2)

/-- `Sender::push`: a single delegation to `CBuffer::push` on the shared
ring; the `bool` is returned as-is. -/
def Sender.push (c : CBuffer) (elem : List Nat) : Except RtErr (Bool × CBuffer) :=
  c.push elem

/-- `Receiver::pop`: a single delegation to `CBuffer::pop` on the shared
ring; the `Option<Vec<u8>>` is returned as-is. -/
def Receiver.pop (c : CBuffer) : Except RtErr (Option (List Nat) × CBuffer) :=
  c.pop

/-- `channel`: the shared ring both endpoints alias, freshly constructed. -/
def channel (s : BufferSize) : CBuffer :=
  CBuffer.with_capacity s

/-- States reachable from `a` by single-threaded sequences of `push` and
`pop` calls that complete without a runtime error. -/
inductive Reach : CBuffer → CBuffer → Prop where
  | refl (c : CBuffer) : Reach c c
  | push {a b c : CBuffer} {data : List Nat} {r : Bool} :
      Reach a b → b.push data = .ok (r, c) → Reach a c
  | pop {a b c : CBuffer} {r : Option (List Nat)} :
      Reach a b → b.pop = .ok (r, c) → Reach a c

/-- Push a list of frames in order, collecting each `push`'s result. -/
def pushAll : CBuffer → List (List Nat) → Except RtErr (List Bool × CBuffer)
  | c, [] => .ok ([], c)
  | c, f :: fs =>
    (c.push f).bind fun r =>
      (pushAll r.2 fs).bind fun rest => .ok (r.1 :: rest.1, rest.2)

/-- Pop `n` times, collecting each `pop`'s result. -/
def popN : CBuffer → Nat → Except RtErr (List (Option (List Nat)) × CBuffer)
  | c, 0 => .ok ([], c)
  | c, n + 1 =>
    (c.pop).bind fun r =>
      (popN r.2 n).bind fun rest => .ok (r.1 :: rest.1, rest.2)

/-- Push all frames, then pop once per frame; also report whether the ring
ends empty. -/
def roundTrip (c : CBuffer) (fs : List (List Nat)) :
    Except RtErr (List Bool × List (Option (List Nat)) × Bool) :=
  (pushAll c fs).bind fun p =>
    (popN p.2 fs.length).bind fun q => .ok (p.1, q.1, q.2.is_empty)

/-- One push immediately followed by one pop, keeping only the observable
results. -/
def pushPop (c : CBuffer) (data : List Nat) :
    Except RtErr (Bool × Option (List Nat)) :=
  (c.push data).bind fun r =>
    (r.2.pop).bind fun q => .ok (r.1, q.1)

/-- On-wire encoding of one frame: little-endian length prefix, then payload. -/
def encFrame (f : List Nat) : List Nat :=
  transform_u32_to_array_of_u8 f.length ++ f

/-- On-wire encoding of a frame sequence. -/
def encAll : List (List Nat) → List Nat
  | [] => []
  | f :: fs => encFrame f ++ encAll fs

example :
    ((CBuffer.with_capacity .Buf64M).push [1]).map (fun r => (r.1, r.2.head, r.2.tail))
      = .ok (true, 0, 5) := rfl

example :
    (((CBuffer.with_capacity .Buf64M).push [7, 8]).bind fun r => r.2.pop).map (fun q => q.1)
      = .ok (some [7, 8]) := rfl


/-! Basic lemmas about the runtime primitives. -/

lemma checkedSub_ok {a b : Nat} (h : b ≤ a) : checkedSub a b = .ok (a - b) := by
  simp [checkedSub, h]

lemma used_of_le {c : CBuffer} (h : c.head ≤ c.tail) :
    c.used = .ok (c.tail - c.head) := by
  simp [CBuffer.used, h]

lemma used_of_gt {c : CBuffer} (h1 : c.tail < c.head) (h2 : c.head - c.tail ≤ c.capacity) :
    c.used = .ok (c.capacity - (c.head - c.tail)) := by
  rw [CBuffer.used, if_neg (by omega), checkedSub_ok h2]

lemma unused_of {c : CBuffer} {u : Nat} (hu : c.used = .ok u) (h : u ≤ c.capacity) :
    c.unused = .ok (c.capacity - u) := by
  simp [CBuffer.unused, hu, Except.bind, checkedSub_ok h]

lemma unused_of_le {c : CBuffer} (h : c.head ≤ c.tail) (h2 : c.tail ≤ c.capacity) :
    c.unused = .ok (c.capacity - (c.tail - c.head)) :=
  unused_of (used_of_le h) (by omega)

lemma unused_of_gt {c : CBuffer} (h1 : c.tail < c.head) (h2 : c.head - c.tail ≤ c.capacity) :
    c.unused = .ok (c.head - c.tail) := by
  rw [unused_of (used_of_gt h1 h2) (by omega)]
  congr 1
  omega

lemma is_empty_false {c : CBuffer} (h : c.tail ≠ c.head) : c.is_empty = false := by
  simp [CBuffer.is_empty, h]

lemma is_empty_true {c : CBuffer} (h : c.tail = c.head) : c.is_empty = true := by
  simp [CBuffer.is_empty, h]

lemma offer_fail {c : CBuffer} {data : List Nat} {un : Nat}
    (hun : c.unused = .ok un) (hle : un ≤ data.length) :
    c.offer data = .ok (false, c) := by
  simp [CBuffer.offer, hun, Except.bind, hle]

lemma offer_ok_nowrap {c : CBuffer} {data : List Nat} {un : Nat}
    (hun : c.unused = .ok un) (hgt : data.length < un)
    (hnw : c.tail + data.length ≤ c.capacity) :
    c.offer data = .ok (true,
      { c with mem := writeBytes c.mem c.capacity c.tail data,
               tail := c.tail + data.length }) := by
  rw [CBuffer.offer, hun]
  show (if un ≤ data.length then _ else _) = _
  rw [if_neg (by omega), if_neg (by omega)]

lemma offer_ok_wrap {c : CBuffer} {data : List Nat} {un : Nat}
    (hun : c.unused = .ok un) (hgt : data.length < un)
    (hw : c.capacity < c.tail + data.length) :
    c.offer data = .ok (true,
      { c with mem := writeBytes c.mem c.capacity c.tail data,
               tail := (c.tail + data.length) % c.capacity }) := by
  rw [CBuffer.offer, hun]
  show (if un ≤ data.length then _ else _) = _
  rw [if_neg (by omega), if_pos hw]

lemma push_fail {c : CBuffer} {data : List Nat} {un : Nat}
    (hun : c.unused = .ok un) (hle : un ≤ data.length + 4) :
    c.push data = .ok (false, c) := by
  simp [CBuffer.push, hun, Except.bind, hle]

lemma push_eq_offers {c : CBuffer} {data : List Nat} {un : Nat}
    (hun : c.unused = .ok un) (hgt : data.length + 4 < un) :
    c.push data =
      (c.offer (transform_u32_to_array_of_u8 data.length)).bind fun r =>
        r.2.offer data := by
  rw [CBuffer.push, hun]
  show (if un ≤ data.length + 4 then _ else _) = _
  rw [if_neg (by omega)]

lemma poll_empty {c : CBuffer} (h : c.is_empty = true) (len : Nat) :
    c.poll len = .ok (none, c) := by
  simp [CBuffer.poll, h]

lemma poll_ok {c : CBuffer} {len u : Nat} {l : List Nat}
    (hne : c.tail ≠ c.head) (hu : c.used = .ok u) (hlen : len ≤ u)
    (hread : readBytes c c.head len = .ok l) :
    c.poll len = .ok (some l, { c with head := (len + c.head) % U32M }) := by
  rw [CBuffer.poll, is_empty_false hne]
  show (c.used.bind _) = _
  rw [hu]
  show (if u < len then _ else _) = _
  rw [if_neg (by omega), hread]
  rfl

lemma poll_err {c : CBuffer} {len u : Nat}
    (hne : c.tail ≠ c.head) (hu : c.used = .ok u) (hlt : u < len) :
    c.poll len = .error .sliceOOB := by
  rw [CBuffer.poll, is_empty_false hne]
  show (c.used.bind _) = _
  rw [hu]
  show (if u < len then _ else _) = _
  rw [if_pos hlt]

lemma pop_empty {c : CBuffer} (h : c.is_empty = true) : c.pop = .ok (none, c) := by
  simp [CBuffer.pop, h]

lemma pop_eq_polls {c : CBuffer} (hne : c.tail ≠ c.head) :
    c.pop = (c.poll 4).bind fun lr =>
      match lr.1 with
      | some l => lr.2.poll (transform_array_of_u8_to_u32 l)
      | none => .ok (none, lr.2) := by
  rw [CBuffer.pop, is_empty_false hne]
  simp

/-! Little-endian length encoding round-trips modulo `2^32`. -/

lemma le_u32_roundtrip (x : Nat) :
    transform_array_of_u8_to_u32 (transform_u32_to_array_of_u8 x) = x % U32M := by
  simp only [transform_u32_to_array_of_u8, transform_array_of_u8_to_u32,
    List.getD_cons_zero, List.getD_cons_succ, U32M]
  have h1 := Nat.div_add_mod x 256
  have h2 := Nat.div_add_mod (x / 256) 256
  have h3 := Nat.div_add_mod (x / 256 / 256) 256
  have e1 : x / 256 / 256 = x / 65536 := by
    rw [Nat.div_div_eq_div_mul]
  have e2 : x / 256 / 256 / 256 = x / 16777216 := by
    rw [Nat.div_div_eq_div_mul, Nat.div_div_eq_div_mul]
  have h5 := Nat.div_add_mod x 4294967296
  have m1 : x % 256 < 256 := Nat.mod_lt _ (by omega)
  have m2 : x / 256 % 256 < 256 := Nat.mod_lt _ (by omega)
  have m3 : x / 65536 % 256 < 256 := Nat.mod_lt _ (by omega)
  have m4 : x / 16777216 % 256 < 256 := Nat.mod_lt _ (by omega)
  have m5 : x % 4294967296 < 4294967296 := Nat.mod_lt _ (by omega)
  have e3 : x / 16777216 / 256 = x / 4294967296 := by
    rw [Nat.div_div_eq_div_mul]
  have h4 := Nat.div_add_mod (x / 16777216) 256
  omega

/-! Read and write lemmas for the double-mapped byte store. -/

lemma mod_ne_of_window {cap x y a : Nat} (hxy : x < y) (hy : y < cap) :
    (a + x) % cap ≠ (a + y) % cap := by
  intro h
  have h2 : Nat.ModEq cap x y := Nat.ModEq.add_left_cancel' a h
  have h3 : cap ∣ y - x := (Nat.modEq_iff_dvd' (Nat.le_of_lt hxy)).mp h2
  have h4 : cap ≤ y - x := Nat.le_of_dvd (by omega) h3
  omega

lemma writeBytes_miss {cap : Nat} :
    ∀ (data : List Nat) (mem : Nat → Nat) (a i : Nat),
      (∀ j, j < data.length → i ≠ (a + j) % cap) →
      writeBytes mem cap a data i = mem i
  | [], _, _, _, _ => rfl
  | v :: rest, mem, a, i, h => by
    rw [writeBytes, writeBytes_miss rest _ (a + 1) i (fun j hj => by
      have := h (j + 1) (by simp only [List.length_cons]; omega)
      have e : a + (j + 1) = a + 1 + j := by omega
      rwa [e] at this)]
    have h0 : i ≠ a % cap := by
      have := h 0 (by simp)
      simpa using this
    simp [writeByte, h0]

lemma writeBytes_hit {cap : Nat} :
    ∀ (data : List Nat) (mem : Nat → Nat) (a j : Nat),
      j < data.length → data.length ≤ cap →
      writeBytes mem cap a data ((a + j) % cap) = data.getD j 0
  | v :: rest, mem, a, 0, hj, hcap => by
    rw [writeBytes, writeBytes_miss rest _ (a + 1) _ (fun j' hj' => by
      have e : a + 1 + j' = a + (1 + j') := by omega
      rw [e]
      exact mod_ne_of_window (by omega)
        (by simp only [List.length_cons] at hcap; omega))]
    simp [writeByte]
  | v :: rest, mem, a, j + 1, hj, hcap => by
    rw [writeBytes]
    have e : a + (j + 1) = a + 1 + j := by omega
    rw [e, writeBytes_hit rest _ (a + 1) j
      (by simp only [List.length_cons] at hj; omega)
      (by simp only [List.length_cons] at hcap; omega)]
    simp

lemma readBytes_ok {c : CBuffer} :
    ∀ (l : List Nat) (a : Nat),
      (∀ i, i < l.length → a + i < 2 * c.capacity) →
      (∀ i, i < l.length → c.mem ((a + i) % c.capacity) = l.getD i 0) →
      readBytes c a l.length = .ok l
  | [], _, _, _ => rfl
  | v :: rest, a, hr, hv => by
    have h0 : a < 2 * c.capacity := by
      have := hr 0 (by simp)
      simpa using this
    have hv0 : c.mem (a % c.capacity) = v := by
      have := hv 0 (by simp)
      simpa using this
    have ih := readBytes_ok (c := c) rest (a + 1)
      (fun i hi => by
        have := hr (i + 1) (by simp only [List.length_cons]; omega)
        omega)
      (fun i hi => by
        have := hv (i + 1) (by simp only [List.length_cons]; omega)
        have e : a + (i + 1) = a + 1 + i := by omega
        rw [e] at this
        simpa using this)
    simp only [List.length_cons, readBytes, readByte, if_pos h0, hv0, Except.bind, ih]

/-! State-preservation facts: each operation mutates only its own cursor. -/

lemma offer_preserves {c c' : CBuffer} {data : List Nat} {b : Bool}
    (h : c.offer data = .ok (b, c')) :
    c'.capacity = c.capacity ∧ c'.head = c.head := by
  rw [CBuffer.offer] at h
  cases hu : c.unused with
  | error e => rw [hu] at h; exact absurd h (by simp [Except.bind])
  | ok un =>
    rw [hu] at h
    simp only [Except.bind] at h
    split at h
    · simp only [Except.ok.injEq, Prod.mk.injEq] at h
      rw [← h.2]
      exact ⟨rfl, rfl⟩
    · split at h
      · simp only [Except.ok.injEq, Prod.mk.injEq] at h
        rw [← h.2]
        exact ⟨rfl, rfl⟩
      · simp only [Except.ok.injEq, Prod.mk.injEq] at h
        rw [← h.2]
        exact ⟨rfl, rfl⟩

lemma push_preserves {c c' : CBuffer} {data : List Nat} {b : Bool}
    (h : c.push data = .ok (b, c')) :
    c'.capacity = c.capacity ∧ c'.head = c.head := by
  rw [CBuffer.push] at h
  cases hu : c.unused with
  | error e => rw [hu] at h; exact absurd h (by simp [Except.bind])
  | ok un =>
    rw [hu] at h
    simp only [Except.bind] at h
    split at h
    · simp only [Except.ok.injEq, Prod.mk.injEq] at h
      rw [← h.2]
      exact ⟨rfl, rfl⟩
    · cases ho : c.offer (transform_u32_to_array_of_u8 data.length) with
      | error e => rw [ho] at h; exact absurd h (by simp)
      | ok r =>
        rw [ho] at h
        simp only at h
        have h1 := offer_preserves ho
        have h2 := offer_preserves h
        exact ⟨h2.1.trans h1.1, h2.2.trans h1.2⟩

lemma poll_preserves {c c' : CBuffer} {len : Nat} {r : Option (List Nat)}
    (h : c.poll len = .ok (r, c')) :
    c'.capacity = c.capacity ∧ c'.tail = c.tail := by
  rw [CBuffer.poll] at h
  split at h
  · simp only [Except.ok.injEq, Prod.mk.injEq] at h
    rw [← h.2]
    exact ⟨rfl, rfl⟩
  · cases hu : c.used with
    | error e => rw [hu] at h; exact absurd h (by simp [Except.bind])
    | ok u =>
      rw [hu] at h
      simp only [Except.bind] at h
      split at h
      · exact absurd h (by simp)
      · cases hr : readBytes c c.head len with
        | error e => rw [hr] at h; exact absurd h (by simp)
        | ok l =>
          rw [hr] at h
          simp only [Except.ok.injEq, Prod.mk.injEq] at h
          rw [← h.2]
          exact ⟨rfl, rfl⟩

lemma pop_preserves {c c' : CBuffer} {r : Option (List Nat)}
    (h : c.pop = .ok (r, c')) :
    c'.capacity = c.capacity ∧ c'.tail = c.tail := by
  rw [CBuffer.pop] at h
  split at h
  · simp only [Except.ok.injEq, Prod.mk.injEq] at h
    rw [← h.2]
    exact ⟨rfl, rfl⟩
  · cases hp : c.poll 4 with
    | error e => rw [hp] at h; exact absurd h (by simp [Except.bind])
    | ok lr =>
      rw [hp] at h
      simp only [Except.bind] at h
      have h1 := poll_preserves hp
      cases hl : lr.1 with
      | some l =>
        rw [hl] at h
        simp only at h
        have h2 := poll_preserves h
        exact ⟨h2.1.trans h1.1, h2.2.trans h1.2⟩
      | none =>
        rw [hl] at h
        simp only [Except.ok.injEq, Prod.mk.injEq] at h
        rw [← h.2]
        exact ⟨h1.1, h1.2⟩

lemma reach_trans {a b c : CBuffer} (h1 : Reach a b) (h2 : Reach b c) : Reach a c := by
  induction h2 with
  | refl => exact h1
  | push h hp ih => exact Reach.push ih hp
  | pop h hp ih => exact Reach.pop ih hp

/-! Reading back a frame that was written as prefix-write then payload-write. -/

lemma mod_add_congr {cap a b : Nat} (h : a % cap = b % cap) (j : Nat) :
    (a + j) % cap = (b + j) % cap :=
  Nat.ModEq.add_right j h

lemma readBytes_congr (c c' : CBuffer) (hm : c'.mem = c.mem) (hc : c'.capacity = c.capacity) :
    ∀ a n, readBytes c' a n = readBytes c a n := by
  intro a n
  induction n generalizing a with
  | zero => rfl
  | succ k ih =>
    simp only [readBytes, readByte, hm, hc, ih]

lemma transform_length (x : Nat) : (transform_u32_to_array_of_u8 x).length = 4 := rfl

lemma mem_frame_read_pre {cap t t1 : Nat} {m : Nat → Nat} {P D : List Nat}
    (hP : P.length = 4) (ht1 : t1 % cap = (t + 4) % cap)
    (hcap : 4 + D.length ≤ cap) :
    ∀ i, i < 4 → writeBytes (writeBytes m cap t P) cap t1 D ((t + i) % cap) = P.getD i 0 := by
  intro i hi
  rw [writeBytes_miss D _ t1 _ (fun j hj => by
    rw [mod_add_congr ht1 j]
    have e : t + 4 + j = t + (4 + j) := by omega
    rw [e]
    exact mod_ne_of_window (by omega) (by omega))]
  exact writeBytes_hit P m t i (by omega) (by omega)

lemma mem_frame_read_pay {cap t t1 : Nat} {m : Nat → Nat} {P D : List Nat}
    (ht1 : t1 % cap = (t + 4) % cap)
    (hcap : 4 + D.length ≤ cap) :
    ∀ j, j < D.length →
      writeBytes (writeBytes m cap t P) cap t1 D ((t + 4 + j) % cap) = D.getD j 0 := by
  intro j hj
  rw [← mod_add_congr ht1 j]
  exact writeBytes_hit D _ t1 j hj (by omega)

/-! Workhorse lemmas: a full push and a full pop of one frame in the
region below the wrap point. -/

lemma push_ok_nowrap {c : CBuffer} {data : List Nat}
    (hht : c.head ≤ c.tail)
    (hnw : c.tail + 4 + data.length ≤ c.capacity)
    (hsp : c.tail + 4 + data.length + 1 ≤ c.capacity + c.head) :
    c.push data = .ok (true,
      { c with mem := writeBytes (writeBytes c.mem c.capacity c.tail
                        (transform_u32_to_array_of_u8 data.length))
                      c.capacity (c.tail + 4) data,
               tail := c.tail + 4 + data.length }) := by
  have htc : c.tail ≤ c.capacity := by omega
  have hun := unused_of_le hht htc
  rw [push_eq_offers hun (by omega)]
  rw [offer_ok_nowrap hun (by rw [transform_length]; omega)
    (by rw [transform_length]; omega)]
  simp only [Except.bind]
  have e4 : c.tail + (transform_u32_to_array_of_u8 data.length).length = c.tail + 4 := by
    rw [transform_length]
  rw [e4]
  have hun2 : ({ c with
      mem := writeBytes c.mem c.capacity c.tail (transform_u32_to_array_of_u8 data.length),
      tail := c.tail + 4 } : CBuffer).unused = .ok (c.capacity - (c.tail + 4 - c.head)) :=
    unused_of_le (by show c.head ≤ c.tail + 4; omega) (by show c.tail + 4 ≤ c.capacity; omega)
  rw [offer_ok_nowrap hun2 (by show data.length < _; omega)
    (by show c.tail + 4 + data.length ≤ c.capacity; omega)]

lemma pop_ok_nowrap {c : CBuffer} {L : Nat} {P payload : List Nat}
    (hht : c.head ≤ c.tail) (htc : c.tail ≤ c.capacity)
    (hU32 : c.capacity < U32M)
    (hfit : c.head + 4 + L ≤ c.tail)
    (hstrict : c.head + 4 ≠ c.tail)
    (hread4 : readBytes c c.head 4 = .ok P)
    (hdec : transform_array_of_u8_to_u32 P = L)
    (hreadp : readBytes c (c.head + 4) L = .ok payload) :
    c.pop = .ok (some payload, { c with head := c.head + 4 + L }) := by
  have hU : c.capacity < 4294967296 := hU32
  have hne : c.tail ≠ c.head := by omega
  have e1 : (4 + c.head) % U32M = c.head + 4 := by
    show (4 + c.head) % 4294967296 = c.head + 4
    omega
  have hp4 := poll_ok hne (used_of_le hht) (by omega) hread4
  rw [e1] at hp4
  rw [pop_eq_polls hne, hp4]
  simp only [Except.bind]
  rw [hdec]
  have hne2 : ({ c with head := c.head + 4 } : CBuffer).tail
      ≠ ({ c with head := c.head + 4 } : CBuffer).head := by
    show c.tail ≠ c.head + 4
    omega
  have hp5 := poll_ok (l := payload) hne2
    (used_of_le (by show c.head + 4 ≤ c.tail; omega)) (by show L ≤ c.tail - (c.head + 4); omega)
    (by exact (readBytes_congr c { c with head := c.head + 4 } rfl rfl
      (c.head + 4) L).trans hreadp)
  rw [hp5]
  have e2 : (L + (c.head + 4)) % U32M = c.head + 4 + L := by
    show (L + (c.head + 4)) % 4294967296 = c.head + 4 + L
    omega
  rw [e2]


lemma dec_small {x : Nat} (h : x < U32M) :
    transform_array_of_u8_to_u32 (transform_u32_to_array_of_u8 x) = x := by
  rw [le_u32_roundtrip]
  exact Nat.mod_eq_of_lt h

/-! A push-then-pop cycle of one single-byte frame (or of one empty frame)
below the wrap point advances both cursors in lock-step; iterating it
drives a reachable drained state to any multiple-of-five offset. -/

lemma cycle_one {cap t x : Nat} {m : Nat → Nat}
    (h5 : t + 5 ≤ cap) (h6 : 6 ≤ cap) (hU32 : cap < U32M) :
    ∃ (m2 : Nat → Nat) (c1 : CBuffer),
      (⟨cap, m, t, t⟩ : CBuffer).push [x] = .ok (true, c1) ∧
      c1.pop = .ok (some [x], ⟨cap, m2, t + 5, t + 5⟩) := by
  have hpush := @push_ok_nowrap ⟨cap, m, t, t⟩ [x] (Nat.le_refl t)
    (by show t + 4 + 1 ≤ cap; omega) (by show t + 4 + 1 + 1 ≤ cap + t; omega)
  have hread4 : readBytes
      (⟨cap, writeBytes (writeBytes m cap t (transform_u32_to_array_of_u8 1)) cap (t + 4) [x],
        t, t + 4 + 1⟩ : CBuffer) t 4 = .ok (transform_u32_to_array_of_u8 1) := by
    have h := readBytes_ok (c := ⟨cap,
        writeBytes (writeBytes m cap t (transform_u32_to_array_of_u8 1)) cap (t + 4) [x],
        t, t + 4 + 1⟩) (transform_u32_to_array_of_u8 1) t
      (fun i hi => by rw [transform_length] at hi; show t + i < 2 * cap; omega)
      (fun i hi => by
        rw [transform_length] at hi
        exact mem_frame_read_pre (transform_length 1) rfl (by show 4 + 1 ≤ cap; omega) i hi)
    rwa [transform_length] at h
  have hreadp : readBytes
      (⟨cap, writeBytes (writeBytes m cap t (transform_u32_to_array_of_u8 1)) cap (t + 4) [x],
        t, t + 4 + 1⟩ : CBuffer) (t + 4) 1 = .ok [x] :=
    readBytes_ok (c := ⟨cap,
        writeBytes (writeBytes m cap t (transform_u32_to_array_of_u8 1)) cap (t + 4) [x],
        t, t + 4 + 1⟩) [x] (t + 4)
      (fun i hi => by
        simp only [List.length_cons, List.length_nil] at hi
        show t + 4 + i < 2 * cap
        omega)
      (fun i hi => mem_frame_read_pay rfl (by show 4 + 1 ≤ cap; omega) i hi)
  have hpop := @pop_ok_nowrap
    ⟨cap, writeBytes (writeBytes m cap t (transform_u32_to_array_of_u8 1)) cap (t + 4) [x],
      t, t + 4 + 1⟩ 1 (transform_u32_to_array_of_u8 1) [x]
    (by show t ≤ t + 4 + 1; omega) (by show t + 4 + 1 ≤ cap; omega) hU32
    (by show t + 4 + 1 ≤ t + 4 + 1; omega) (by show t + 4 ≠ t + 4 + 1; omega)
    hread4 (dec_small (by show 1 < 4294967296; omega)) hreadp
  have e : t + 4 + 1 = t + 5 := by omega
  rw [e] at hpop
  exact ⟨_, _, hpush, hpop⟩

lemma cycle_empty {cap t : Nat} {m : Nat → Nat}
    (h4 : t + 4 ≤ cap) (h5 : 5 ≤ cap) (hU32 : cap < U32M) :
    ∃ (m2 : Nat → Nat) (c1 : CBuffer),
      (⟨cap, m, t, t⟩ : CBuffer).push [] = .ok (true, c1) ∧
      c1.pop = .ok (none, ⟨cap, m2, t + 4, t + 4⟩) := by
  have hpush := @push_ok_nowrap ⟨cap, m, t, t⟩ [] (Nat.le_refl t)
    (by show t + 4 + 0 ≤ cap; omega) (by show t + 4 + 0 + 1 ≤ cap + t; omega)
  have hU : cap < 4294967296 := hU32
  have hne : ((⟨cap,
      writeBytes (writeBytes m cap t (transform_u32_to_array_of_u8 0)) cap (t + 4) [],
      t, t + 4 + 0⟩ : CBuffer)).tail
      ≠ ((⟨cap,
      writeBytes (writeBytes m cap t (transform_u32_to_array_of_u8 0)) cap (t + 4) [],
      t, t + 4 + 0⟩ : CBuffer)).head := by
    show t + 4 + 0 ≠ t
    omega
  have hread4 : readBytes
      (⟨cap, writeBytes (writeBytes m cap t (transform_u32_to_array_of_u8 0)) cap (t + 4) [],
        t, t + 4 + 0⟩ : CBuffer) t 4 = .ok (transform_u32_to_array_of_u8 0) := by
    have h := readBytes_ok (c := ⟨cap,
        writeBytes (writeBytes m cap t (transform_u32_to_array_of_u8 0)) cap (t + 4) [],
        t, t + 4 + 0⟩) (transform_u32_to_array_of_u8 0) t
      (fun i hi => by rw [transform_length] at hi; show t + i < 2 * cap; omega)
      (fun i hi => by
        rw [transform_length] at hi
        exact mem_frame_read_pre (transform_length 0) rfl (by show 4 + 0 ≤ cap; omega) i hi)
    rwa [transform_length] at h
  have hp4 := poll_ok hne (used_of_le (by show t ≤ t + 4 + 0; omega))
    (by show 4 ≤ t + 4 + 0 - t; omega) hread4
  have e1 : (4 + ((⟨cap,
      writeBytes (writeBytes m cap t (transform_u32_to_array_of_u8 0)) cap (t + 4) [],
      t, t + 4 + 0⟩ : CBuffer)).head) % U32M = t + 4 := by
    show (4 + t) % 4294967296 = t + 4
    omega
  rw [e1] at hp4
  have hpop : ((⟨cap,
      writeBytes (writeBytes m cap t (transform_u32_to_array_of_u8 0)) cap (t + 4) [],
      t, t + 4 + 0⟩ : CBuffer)).pop = .ok (none,
      (⟨cap, writeBytes (writeBytes m cap t (transform_u32_to_array_of_u8 0)) cap (t + 4) [],
        t + 4, t + 4⟩ : CBuffer)) := by
    rw [pop_eq_polls hne, hp4]
    simp only [Except.bind]
    rw [dec_small (by show 0 < 4294967296; omega)]
    have hmt : ((⟨cap,
        writeBytes (writeBytes m cap t (transform_u32_to_array_of_u8 0)) cap (t + 4) [],
        t + 4, t + 4 + 0⟩ : CBuffer)).is_empty = true :=
      is_empty_true (by show t + 4 + 0 = t + 4; omega)
    rw [poll_empty hmt]
  exact ⟨_, _, hpush, hpop⟩

lemma reach_cycles {cap : Nat} (hU32 : cap < U32M) (h6 : 6 ≤ cap) :
    ∀ (k t : Nat) (m : Nat → Nat), t + 5 * k ≤ cap →
      ∃ m2, Reach (⟨cap, m, t, t⟩ : CBuffer) (⟨cap, m2, t + 5 * k, t + 5 * k⟩ : CBuffer)
  | 0, t, m, _ => ⟨m, by simpa using Reach.refl (⟨cap, m, t, t⟩ : CBuffer)⟩
  | k + 1, t, m, hk => by
    obtain ⟨m2, c1, hpush, hpop⟩ := cycle_one (t := t) (m := m) (x := 0)
      (by omega) h6 hU32
    obtain ⟨m3, hr⟩ := reach_cycles hU32 h6 k (t + 5) m2 (by omega)
    refine ⟨m3, ?_⟩
    have r1 : Reach (⟨cap, m, t, t⟩ : CBuffer) (⟨cap, m2, t + 5, t + 5⟩ : CBuffer) :=
      Reach.pop (Reach.push (Reach.refl _) hpush) hpop
    have e : t + 5 + 5 * k = t + 5 * (k + 1) := by omega
    rw [e] at hr
    exact reach_trans r1 hr

/-! Pushing a 1-byte frame when exactly 5 bytes remain before the wrap point
stores `tail = capacity` itself (the wrap branch tests `capacity < tail + size`
strictly), and the following pop stores `head = capacity`. -/

lemma push_to_exact_cap {cap t : Nat} {m : Nat → Nat}
    (ht : t + 5 = cap) (h10 : 10 ≤ cap) :
    (⟨cap, m, t, t⟩ : CBuffer).push [9] = .ok (true,
      ⟨cap, writeBytes (writeBytes m cap t (transform_u32_to_array_of_u8 1)) cap (t + 4) [9],
        t, cap⟩) := by
  have h := @push_ok_nowrap ⟨cap, m, t, t⟩ [9] (Nat.le_refl t)
    (by show t + 4 + 1 ≤ cap; omega) (by show t + 4 + 1 + 1 ≤ cap + t; omega)
  have h2 : (⟨cap, m, t, t⟩ : CBuffer).push [9] = .ok (true,
      ⟨cap, writeBytes (writeBytes m cap t (transform_u32_to_array_of_u8 1)) cap (t + 4) [9],
        t, t + 4 + 1⟩) := h
  have e : t + 4 + 1 = cap := by omega
  rw [e] at h2
  exact h2

lemma pop_to_exact_cap {cap t : Nat} {m : Nat → Nat}
    (ht : t + 5 = cap) (h10 : 10 ≤ cap) (hU32 : cap < U32M) :
    (⟨cap, writeBytes (writeBytes m cap t (transform_u32_to_array_of_u8 1)) cap (t + 4) [9],
      t, cap⟩ : CBuffer).pop = .ok (some [9],
      ⟨cap, writeBytes (writeBytes m cap t (transform_u32_to_array_of_u8 1)) cap (t + 4) [9],
        cap, cap⟩) := by
  have hread4 : readBytes
      (⟨cap, writeBytes (writeBytes m cap t (transform_u32_to_array_of_u8 1)) cap (t + 4) [9],
        t, cap⟩ : CBuffer) t 4 = .ok (transform_u32_to_array_of_u8 1) := by
    have h := readBytes_ok (c := ⟨cap,
        writeBytes (writeBytes m cap t (transform_u32_to_array_of_u8 1)) cap (t + 4) [9],
        t, cap⟩) (transform_u32_to_array_of_u8 1) t
      (fun i hi => by rw [transform_length] at hi; show t + i < 2 * cap; omega)
      (fun i hi => by
        rw [transform_length] at hi
        exact mem_frame_read_pre (transform_length 1) rfl (by show 4 + 1 ≤ cap; omega) i hi)
    rwa [transform_length] at h
  have hreadp : readBytes
      (⟨cap, writeBytes (writeBytes m cap t (transform_u32_to_array_of_u8 1)) cap (t + 4) [9],
        t, cap⟩ : CBuffer) (t + 4) 1 = .ok [9] :=
    readBytes_ok (c := ⟨cap,
        writeBytes (writeBytes m cap t (transform_u32_to_array_of_u8 1)) cap (t + 4) [9],
        t, cap⟩) [9] (t + 4)
      (fun i hi => by
        simp only [List.length_cons, List.length_nil] at hi
        show t + 4 + i < 2 * cap
        omega)
      (fun i hi => mem_frame_read_pay rfl (by show 4 + 1 ≤ cap; omega) i hi)
  have hpop := @pop_ok_nowrap
    ⟨cap, writeBytes (writeBytes m cap t (transform_u32_to_array_of_u8 1)) cap (t + 4) [9],
      t, cap⟩ 1 (transform_u32_to_array_of_u8 1) [9]
    (by show t ≤ cap; omega) (by show cap ≤ cap; omega) hU32
    (by show t + 4 + 1 ≤ cap; omega) (by show t + 4 ≠ cap; omega)
    hread4 (dec_small (by show 1 < 4294967296; omega)) hreadp
  have h2 : (⟨cap, writeBytes (writeBytes m cap t (transform_u32_to_array_of_u8 1)) cap (t + 4) [9],
      t, cap⟩ : CBuffer).pop = .ok (some [9],
      ⟨cap, writeBytes (writeBytes m cap t (transform_u32_to_array_of_u8 1)) cap (t + 4) [9],
        t + 4 + 1, cap⟩) := hpop
  have e : t + 4 + 1 = cap := by omega
  rw [e] at h2
  exact h2

/-! From the state `head = tail = capacity`, one more frame lands at the
mirror of the ring start; popping it drives `head` past `capacity` for good,
after which the drained ring no longer reports empty and the next pop hits
the out-of-bounds slice index in `poll`. -/

lemma push_wrap_lap {cap : Nat} {m : Nat → Nat} (h10 : 10 ≤ cap) :
    (⟨cap, m, cap, cap⟩ : CBuffer).push [5] = .ok (true,
      ⟨cap, writeBytes (writeBytes m cap cap (transform_u32_to_array_of_u8 1)) cap 4 [5],
        cap, 5⟩) := by
  have hun : (⟨cap, m, cap, cap⟩ : CBuffer).unused = .ok (cap - (cap - cap)) :=
    unused_of_le (Nat.le_refl cap) (Nat.le_refl cap)
  rw [push_eq_offers hun (by show 1 + 4 < cap - (cap - cap); omega)]
  rw [offer_ok_wrap hun (by rw [transform_length]; omega)
    (by rw [transform_length]; show cap < cap + 4; omega)]
  simp only [Except.bind, List.length_singleton]
  have e1 : (cap + (transform_u32_to_array_of_u8 1).length) % cap = 4 := by
    rw [transform_length, Nat.add_mod_left]
    exact Nat.mod_eq_of_lt (by omega)
  rw [e1]
  have hun2 : (⟨cap, writeBytes m cap cap (transform_u32_to_array_of_u8 1), cap, 4⟩
      : CBuffer).unused = .ok (cap - 4) :=
    unused_of_gt (by show 4 < cap; omega) (by show cap - 4 ≤ cap; omega)
  rw [offer_ok_nowrap hun2 (by show 1 < cap - 4; omega) (by show 4 + 1 ≤ cap; omega)]
  rfl

lemma pop_wrap_lap {cap : Nat} {m : Nat → Nat} (h10 : 10 ≤ cap)
    (hU32 : cap + 5 < U32M) :
    (⟨cap, writeBytes (writeBytes m cap cap (transform_u32_to_array_of_u8 1)) cap 4 [5],
      cap, 5⟩ : CBuffer).pop = .ok (some [5],
      ⟨cap, writeBytes (writeBytes m cap cap (transform_u32_to_array_of_u8 1)) cap 4 [5],
        cap + 5, 5⟩) := by
  have hU : cap + 5 < 4294967296 := hU32
  have hne : ((⟨cap,
      writeBytes (writeBytes m cap cap (transform_u32_to_array_of_u8 1)) cap 4 [5],
      cap, 5⟩ : CBuffer)).tail ≠ ((⟨cap,
      writeBytes (writeBytes m cap cap (transform_u32_to_array_of_u8 1)) cap 4 [5],
      cap, 5⟩ : CBuffer)).head := by
    show (5 : Nat) ≠ cap
    omega
  have hread4 : readBytes
      (⟨cap, writeBytes (writeBytes m cap cap (transform_u32_to_array_of_u8 1)) cap 4 [5],
        cap, 5⟩ : CBuffer) cap 4 = .ok (transform_u32_to_array_of_u8 1) := by
    have h := readBytes_ok (c := ⟨cap,
        writeBytes (writeBytes m cap cap (transform_u32_to_array_of_u8 1)) cap 4 [5],
        cap, 5⟩) (transform_u32_to_array_of_u8 1) cap
      (fun i hi => by rw [transform_length] at hi; show cap + i < 2 * cap; omega)
      (fun i hi => by
        rw [transform_length] at hi
        exact mem_frame_read_pre (transform_length 1)
          ((Nat.add_mod_left cap 4).symm) (by show 4 + 1 ≤ cap; omega) i hi)
    rwa [transform_length] at h
  have hp4 := poll_ok hne
    (used_of_gt (by show (5 : Nat) < cap; omega) (by show cap - 5 ≤ cap; omega))
    (by show 4 ≤ cap - (cap - 5); omega) hread4
  have e1 : (4 + ((⟨cap,
      writeBytes (writeBytes m cap cap (transform_u32_to_array_of_u8 1)) cap 4 [5],
      cap, 5⟩ : CBuffer)).head) % U32M = cap + 4 := by
    show (4 + cap) % 4294967296 = cap + 4
    omega
  rw [e1] at hp4
  rw [pop_eq_polls hne, hp4]
  simp only [Except.bind]
  rw [dec_small (by show 1 < 4294967296; omega)]
  have hne3 : ((⟨cap,
      writeBytes (writeBytes m cap cap (transform_u32_to_array_of_u8 1)) cap 4 [5],
      cap + 4, 5⟩ : CBuffer)).tail ≠ ((⟨cap,
      writeBytes (writeBytes m cap cap (transform_u32_to_array_of_u8 1)) cap 4 [5],
      cap + 4, 5⟩ : CBuffer)).head := by
    show (5 : Nat) ≠ cap + 4
    omega
  have hreadp : readBytes
      (⟨cap, writeBytes (writeBytes m cap cap (transform_u32_to_array_of_u8 1)) cap 4 [5],
        cap + 4, 5⟩ : CBuffer) (cap + 4) 1 = .ok [5] :=
    readBytes_ok (c := ⟨cap,
        writeBytes (writeBytes m cap cap (transform_u32_to_array_of_u8 1)) cap 4 [5],
        cap + 4, 5⟩) [5] (cap + 4)
      (fun i hi => by
        simp only [List.length_cons, List.length_nil] at hi
        show cap + 4 + i < 2 * cap
        omega)
      (fun i hi => mem_frame_read_pay ((Nat.add_mod_left cap 4).symm)
        (by show 4 + 1 ≤ cap; omega) i hi)
  have hp1 := poll_ok hne3
    (used_of_gt (by show (5 : Nat) < cap + 4; omega) (by show cap + 4 - 5 ≤ cap; omega))
    (by show 1 ≤ cap - (cap + 4 - 5); omega) hreadp
  rw [hp1]
  have e2 : (1 + ((⟨cap,
      writeBytes (writeBytes m cap cap (transform_u32_to_array_of_u8 1)) cap 4 [5],
      cap + 4, 5⟩ : CBuffer)).head) % U32M = cap + 5 := by
    show (1 + (cap + 4)) % 4294967296 = cap + 5
    omega
  rw [e2]

lemma pop_panics_after_lap {cap : Nat} {m : Nat → Nat} (h10 : 10 ≤ cap) :
    (⟨cap, m, cap + 5, 5⟩ : CBuffer).pop = .error .sliceOOB := by
  have hne : ((⟨cap, m, cap + 5, 5⟩ : CBuffer)).tail
      ≠ ((⟨cap, m, cap + 5, 5⟩ : CBuffer)).head := by
    show (5 : Nat) ≠ cap + 5
    omega
  rw [pop_eq_polls hne]
  rw [poll_err hne
    (used_of_gt (by show (5 : Nat) < cap + 5; omega) (by show cap + 5 - 5 ≤ cap; omega))
    (by show cap - (cap + 5 - 5) < 4; omega)]
  rfl

lemma reach_boundary : ∃ m, Reach (channel .Buf64M)
    (⟨67108864, m, 67108859, 67108859⟩ : CBuffer) := by
  obtain ⟨m1, c1, hpush, hpop⟩ := @cycle_empty 67108864 0 (fun _ => 0)
    (by norm_num) (by norm_num) (by decide)
  obtain ⟨m3, hr⟩ := @reach_cycles 67108864 (by decide) (by norm_num) 13421771 4 m1
    (by norm_num)
  have r1 : Reach (channel .Buf64M) (⟨67108864, m1, 4, 4⟩ : CBuffer) :=
    Reach.pop (Reach.push (Reach.refl (channel .Buf64M)) hpush) hpop
  have e : 4 + 5 * 13421771 = 67108859 := by norm_num
  rw [e] at hr
  exact ⟨m3, reach_trans r1 hr⟩

/-- C1: the claim states that on every reachable state `head` and `tail`
remain in `[0, N)`, a successful push of payload size `S` setting
`tail := (tail + 4 + S) mod N` and a successful pop of a length-`L` frame
setting `head := (head + 4 + L) mod N`.  The code violates this: its wrap
test is the strict `capacity < tail + size`, so a frame ending exactly at
the wrap point stores `tail = N` itself (where the claimed formula gives
`0`), and `poll` stores `head := head + len` with no reduction at all, so
popping that frame stores `head = N` (where the claimed formula gives `0`).
Witnessed here on a state reachable from `channel(Buf64M)` by one empty
push/pop cycle and 13421771 one-byte push/pop cycles. -/
theorem c1_cursor_range_bug : ∃ (c c' c'' : CBuffer),
    Reach (channel .Buf64M) c ∧
    c.head = c.tail ∧ c.tail = 67108859 ∧
    c.push [9] = .ok (true, c') ∧
    c'.tail = 67108864 ∧
    ¬ (c'.tail < (channel .Buf64M).capacity) ∧
    (c.tail + 4 + 1) % (channel .Buf64M).capacity = 0 ∧
    c'.pop = .ok (some [9], c'') ∧
    c''.head = 67108864 ∧
    ¬ (c''.head < (channel .Buf64M).capacity) ∧
    (c'.head + 4 + 1) % (channel .Buf64M).capacity = 0 := by
  obtain ⟨m, hr⟩ := reach_boundary
  refine ⟨⟨67108864, m, 67108859, 67108859⟩, _, _, hr, rfl, rfl,
    @push_to_exact_cap 67108864 67108859 m (by norm_num) (by norm_num),
    rfl,
    (by show ¬ ((67108864 : Nat) < (channel .Buf64M).capacity); decide),
    (by show (67108859 + 4 + 1) % (channel .Buf64M).capacity = 0; decide),
    @pop_to_exact_cap 67108864 67108859 m (by norm_num) (by norm_num) (by decide),
    rfl,
    (by show ¬ ((67108864 : Nat) < (channel .Buf64M).capacity); decide),
    (by show (67108859 + 4 + 1) % (channel .Buf64M).capacity = 0; decide)⟩

/-- C7: the claim states that no single-threaded sequence of `push`/`pop`
calls from the initial state can panic, the only failure mode being a
`false`/`None` result.  The code violates this: after the ring wraps once,
`head` (never reduced modulo `N`) exceeds `tail` by exactly `N` on the
drained ring, `used()` computes `0`, `is_empty()` is `false`, and the next
`pop` evaluates `readable_slice()[..4]` on a 0-length slice, an
out-of-bounds slice index that panics.  A reachable state whose very next
`pop` panics is exhibited below. -/
theorem c7_hot_path_panic_bug : ∃ c : CBuffer,
    Reach (channel .Buf64M) c ∧ c.pop = .error .sliceOOB := by
  obtain ⟨m, hr⟩ := reach_boundary
  have h1 := @push_to_exact_cap 67108864 67108859 m (by norm_num) (by norm_num)
  have h2 := @pop_to_exact_cap 67108864 67108859 m (by norm_num) (by norm_num) (by decide)
  have hr2 : Reach (channel .Buf64M)
      (⟨67108864,
        writeBytes (writeBytes m 67108864 67108859 (transform_u32_to_array_of_u8 1))
          67108864 (67108859 + 4) [9], 67108864, 67108864⟩ : CBuffer) :=
    Reach.pop (Reach.push hr h1) h2
  have h3 := @push_wrap_lap 67108864
    (writeBytes (writeBytes m 67108864 67108859 (transform_u32_to_array_of_u8 1))
      67108864 (67108859 + 4) [9]) (by norm_num)
  have h4 := @pop_wrap_lap 67108864
    (writeBytes (writeBytes m 67108864 67108859 (transform_u32_to_array_of_u8 1))
      67108864 (67108859 + 4) [9]) (by norm_num) (by decide)
  refine ⟨_, Reach.pop (Reach.push hr2 h3) h4, ?_⟩
  exact @pop_panics_after_lap 67108864 _ (by norm_num)

lemma mod_of_lt_two {a cap : Nat} (h1 : cap ≤ a) (h2 : a < 2 * cap) :
    a % cap = a - cap := by
  rw [Nat.mod_eq_sub_mod h1]
  exact Nat.mod_eq_of_lt (by omega)

/-- The four capacities `CBuffer::with_capacity` can actually produce. -/
def AdmissibleCap (n : Nat) : Prop := ∃ s : BufferSize, BufferSize.bytes s = n

lemma admissible_bounds {n : Nat} (h : AdmissibleCap n) :
    67108864 ≤ n ∧ n ≤ 536870912 := by
  obtain ⟨s, rfl⟩ := h
  cases s <;> norm_num [BufferSize.bytes]

/-! Popping a frame whose bytes straddle the wrap point: the double map
makes both reads linear, and the exact payload comes back (while `head` is
left at `tail + 4 + S`, past the wrap point). -/

lemma wrap_pop {cap tl t1 : Nat} {mem : Nat → Nat} {data : List Nat}
    (hcapL : 67108864 ≤ cap) (hcapU : cap ≤ 536870912)
    (htc : tl < cap)
    (hwrap : cap < tl + 4 + data.length)
    (hfit : data.length ≤ cap - 5)
    (ht1 : t1 % cap = (tl + 4) % cap) :
    (⟨cap, writeBytes (writeBytes mem cap tl (transform_u32_to_array_of_u8 data.length))
        cap t1 data, tl, tl + 4 + data.length - cap⟩ : CBuffer).pop
      = .ok (some data,
        ⟨cap, writeBytes (writeBytes mem cap tl (transform_u32_to_array_of_u8 data.length))
          cap t1 data, tl + 4 + data.length, tl + 4 + data.length - cap⟩) := by
  have hne : ((⟨cap,
      writeBytes (writeBytes mem cap tl (transform_u32_to_array_of_u8 data.length)) cap t1 data,
      tl, tl + 4 + data.length - cap⟩ : CBuffer)).tail
      ≠ ((⟨cap,
      writeBytes (writeBytes mem cap tl (transform_u32_to_array_of_u8 data.length)) cap t1 data,
      tl, tl + 4 + data.length - cap⟩ : CBuffer)).head := by
    show tl + 4 + data.length - cap ≠ tl
    omega
  have hread4 : readBytes
      (⟨cap, writeBytes (writeBytes mem cap tl (transform_u32_to_array_of_u8 data.length))
        cap t1 data, tl, tl + 4 + data.length - cap⟩ : CBuffer) tl 4
      = .ok (transform_u32_to_array_of_u8 data.length) := by
    have h := readBytes_ok (c := ⟨cap,
        writeBytes (writeBytes mem cap tl (transform_u32_to_array_of_u8 data.length)) cap t1 data,
        tl, tl + 4 + data.length - cap⟩) (transform_u32_to_array_of_u8 data.length) tl
      (fun i hi => by rw [transform_length] at hi; show tl + i < 2 * cap; omega)
      (fun i hi => by
        rw [transform_length] at hi
        exact mem_frame_read_pre (transform_length data.length) ht1 (by omega) i hi)
    rwa [transform_length] at h
  have hp4 := poll_ok hne
    (used_of_gt (by show tl + 4 + data.length - cap < tl; omega)
      (by show tl - (tl + 4 + data.length - cap) ≤ cap; omega))
    (by show 4 ≤ cap - (tl - (tl + 4 + data.length - cap)); omega) hread4
  have e1 : (4 + ((⟨cap,
      writeBytes (writeBytes mem cap tl (transform_u32_to_array_of_u8 data.length)) cap t1 data,
      tl, tl + 4 + data.length - cap⟩ : CBuffer)).head) % U32M = tl + 4 := by
    show (4 + tl) % 4294967296 = tl + 4
    omega
  rw [e1] at hp4
  rw [pop_eq_polls hne, hp4]
  simp only [Except.bind]
  rw [dec_small (by show data.length < 4294967296; omega)]
  have hne3 : ((⟨cap,
      writeBytes (writeBytes mem cap tl (transform_u32_to_array_of_u8 data.length)) cap t1 data,
      tl + 4, tl + 4 + data.length - cap⟩ : CBuffer)).tail
      ≠ ((⟨cap,
      writeBytes (writeBytes mem cap tl (transform_u32_to_array_of_u8 data.length)) cap t1 data,
      tl + 4, tl + 4 + data.length - cap⟩ : CBuffer)).head := by
    show tl + 4 + data.length - cap ≠ tl + 4
    omega
  have hreadp : readBytes
      (⟨cap, writeBytes (writeBytes mem cap tl (transform_u32_to_array_of_u8 data.length))
        cap t1 data, tl + 4, tl + 4 + data.length - cap⟩ : CBuffer) (tl + 4) data.length
      = .ok data :=
    readBytes_ok (c := ⟨cap,
        writeBytes (writeBytes mem cap tl (transform_u32_to_array_of_u8 data.length)) cap t1 data,
        tl + 4, tl + 4 + data.length - cap⟩) data (tl + 4)
      (fun i hi => by show tl + 4 + i < 2 * cap; omega)
      (fun i hi => mem_frame_read_pay ht1 (by omega) i hi)
  have hp5 := poll_ok hne3
    (used_of_gt (by show tl + 4 + data.length - cap < tl + 4; omega)
      (by show tl + 4 - (tl + 4 + data.length - cap) ≤ cap; omega))
    (by show data.length ≤ cap - (tl + 4 - (tl + 4 + data.length - cap)); omega) hreadp
  rw [hp5]
  have e2 : (data.length + ((⟨cap,
      writeBytes (writeBytes mem cap tl (transform_u32_to_array_of_u8 data.length)) cap t1 data,
      tl + 4, tl + 4 + data.length - cap⟩ : CBuffer)).head) % U32M
      = tl + 4 + data.length := by
    show (data.length + (tl + 4)) % 4294967296 = tl + 4 + data.length
    omega
  rw [e2]

/-- One whole push-then-pop cycle of a frame that straddles the wrap point,
with the exact intermediate and final states. -/
lemma wrap_cycle {c : CBuffer} {data : List Nat}
    (hcapL : 67108864 ≤ c.capacity) (hcapU : c.capacity ≤ 536870912)
    (heq : c.head = c.tail) (htc : c.tail < c.capacity)
    (hwrap : c.capacity < c.tail + 4 + data.length)
    (hfit : data.length ≤ c.capacity - 5) :
    ∃ M2 : Nat → Nat,
      c.push data = .ok (true,
        ⟨c.capacity, M2, c.tail, c.tail + 4 + data.length - c.capacity⟩) ∧
      (⟨c.capacity, M2, c.tail, c.tail + 4 + data.length - c.capacity⟩ : CBuffer).pop
        = .ok (some data,
          ⟨c.capacity, M2, c.tail + 4 + data.length,
            c.tail + 4 + data.length - c.capacity⟩) := by
  obtain ⟨cap, mem, hd, tl⟩ := c
  simp only at hcapL hcapU heq htc hwrap hfit
  subst heq
  have hun : (⟨cap, mem, hd, hd⟩ : CBuffer).unused = .ok (cap - (hd - hd)) :=
    unused_of_le (Nat.le_refl hd) (Nat.le_of_lt htc)
  rcases le_or_lt (hd + 4) cap with hA | hB
  · -- the length prefix still fits below the wrap point
    refine ⟨writeBytes (writeBytes mem cap hd (transform_u32_to_array_of_u8 data.length))
      cap (hd + 4) data, ?_, wrap_pop hcapL hcapU htc hwrap hfit rfl⟩
    rw [push_eq_offers hun (by omega)]
    rw [offer_ok_nowrap hun (by rw [transform_length]; omega)
      (by rw [transform_length]; show hd + 4 ≤ cap; omega)]
    simp only [Except.bind, transform_length]
    have hun2 : (⟨cap, writeBytes mem cap hd (transform_u32_to_array_of_u8 data.length),
        hd, hd + 4⟩ : CBuffer).unused = .ok (cap - (hd + 4 - hd)) :=
      unused_of_le (by show hd ≤ hd + 4; omega) (by show hd + 4 ≤ cap; omega)
    rw [offer_ok_wrap hun2 (by show data.length < cap - (hd + 4 - hd); omega)
      (by show cap < hd + 4 + data.length; omega)]
    have e2 : (hd + 4 + data.length) % cap = hd + 4 + data.length - cap :=
      mod_of_lt_two (by omega) (by omega)
    rw [e2]
  · -- even the length prefix wraps
    refine ⟨writeBytes (writeBytes mem cap hd (transform_u32_to_array_of_u8 data.length))
      cap (hd + 4 - cap) data, ?_,
      wrap_pop hcapL hcapU htc hwrap hfit
        ((Nat.mod_eq_sub_mod (Nat.le_of_lt hB)).symm)⟩
    rw [push_eq_offers hun (by omega)]
    rw [offer_ok_wrap hun (by rw [transform_length]; omega)
      (by rw [transform_length]; show cap < hd + 4; omega)]
    simp only [Except.bind, transform_length]
    have e1 : (hd + 4) % cap = hd + 4 - cap := mod_of_lt_two (by omega) (by omega)
    rw [e1]
    have hun2 : (⟨cap, writeBytes mem cap hd (transform_u32_to_array_of_u8 data.length),
        hd, hd + 4 - cap⟩ : CBuffer).unused = .ok (hd - (hd + 4 - cap)) :=
      unused_of_gt (by show hd + 4 - cap < hd; omega) (by show hd - (hd + 4 - cap) ≤ cap; omega)
    rw [offer_ok_nowrap hun2 (by show data.length < hd - (hd + 4 - cap); omega)
      (by show hd + 4 - cap + data.length ≤ cap; omega)]
    have e3 : hd + 4 - cap + data.length = hd + 4 + data.length - cap := by omega
    rw [e3]

/-- C6 (amended): from any spec-invariant empty state (`head = tail`,
both in `[0, N)`, `N` one of the four admissible capacities) in which the
next frame straddles the wrap point (`tail + 4 + S > N`) and fits
(`S ≤ N - 5`), the push succeeds and the immediately following pop returns
exactly the pushed payload, with no truncation or corruption. -/
theorem c6_wrap_roundtrip {c : CBuffer} {data : List Nat}
    (hc : AdmissibleCap c.capacity)
    (heq : c.head = c.tail) (htc : c.tail < c.capacity)
    (hwrap : c.capacity < c.tail + 4 + data.length)
    (hfit : data.length ≤ c.capacity - 5) :
    pushPop c data = .ok (true, some data) := by
  obtain ⟨hL, hU⟩ := admissible_bounds hc
  obtain ⟨M2, hpush, hpop⟩ := wrap_cycle hL hU heq htc hwrap hfit
  rw [pushPop, hpush]
  simp only [Except.bind]
  rw [hpop]

theorem c6_wrap_roundtrip_witness :
    pushPop (⟨67108864, fun _ => 0, 67108861, 67108861⟩ : CBuffer) [99]
      = .ok (true, some [99]) :=
  c6_wrap_roundtrip ⟨.Buf64M, rfl⟩ rfl
    (by show (67108861 : Nat) < 67108864; norm_num)
    (by show (67108864 : Nat) < 67108861 + 4 + 1; norm_num)
    (by show (1 : Nat) ≤ 67108864 - 5; norm_num)

lemma pop_err_at_lap {cap h t : Nat} {m : Nat → Nat}
    (he : h = t + cap) (h4 : 4 ≤ cap) :
    (⟨cap, m, h, t⟩ : CBuffer).pop = .error .sliceOOB := by
  subst he
  have hne : ((⟨cap, m, t + cap, t⟩ : CBuffer)).tail
      ≠ ((⟨cap, m, t + cap, t⟩ : CBuffer)).head := by
    show t ≠ t + cap
    omega
  rw [pop_eq_polls hne]
  rw [poll_err hne
    (used_of_gt (by show t < t + cap; omega) (by show t + cap - t ≤ cap; omega))
    (by show cap - (t + cap - t) < 4; omega)]
  rfl

lemma reach_prewrap : ∃ m, Reach (channel .Buf64M)
    (⟨67108864, m, 67108861, 67108861⟩ : CBuffer) := by
  obtain ⟨m1, c1, hp1, hq1⟩ := @cycle_empty 67108864 0 (fun _ => 0)
    (by norm_num) (by norm_num) (by decide)
  obtain ⟨m2, c2, hp2, hq2⟩ := @cycle_empty 67108864 4 m1
    (by norm_num) (by norm_num) (by decide)
  obtain ⟨m3, c3, hp3, hq3⟩ := @cycle_empty 67108864 8 m2
    (by norm_num) (by norm_num) (by decide)
  obtain ⟨m4, c4, hp4, hq4⟩ := @cycle_empty 67108864 12 m3
    (by norm_num) (by norm_num) (by decide)
  obtain ⟨m5, hr⟩ := @reach_cycles 67108864 (by decide) (by norm_num) 13421769 16 m4
    (by norm_num)
  have r1 : Reach (channel .Buf64M) (⟨67108864, m4, 16, 16⟩ : CBuffer) :=
    Reach.pop (Reach.push (Reach.pop (Reach.push (Reach.pop (Reach.push (Reach.pop
      (Reach.push (Reach.refl (channel .Buf64M)) hp1) hq1) hp2) hq2) hp3) hq3) hp4) hq4
  have e : 16 + 5 * 13421769 = 67108861 := by norm_num
  rw [e] at hr
  exact ⟨m5, reach_trans r1 hr⟩

/-- C6 (as stated, refuted): the claim additionally asserts that after the
wrap-straddling round trip "the queue continues to operate correctly
afterwards".  It does not: the pop leaves `head = tail + 4 + S ≥ N` while
`tail` wrapped, so the drained ring no longer reports empty, and the very
next `pop` hits the out-of-bounds slice index in `poll` (a panic) instead
of returning `None`.  Exhibited on a reachable state. -/
theorem c6_aftermath_cex : ∃ (c c1 c2 : CBuffer),
    Reach (channel .Buf64M) c ∧ c.head = c.tail ∧
    c.capacity < c.tail + 4 + 1 ∧
    c.push [99] = .ok (true, c1) ∧
    c1.pop = .ok (some [99], c2) ∧
    c2.is_empty = false ∧
    c2.pop = .error .sliceOOB := by
  obtain ⟨m, hr⟩ := reach_prewrap
  obtain ⟨M2, hpush, hpop⟩ := @wrap_cycle ⟨67108864, m, 67108861, 67108861⟩ [99]
    (by show (67108864 : Nat) ≤ 67108864; norm_num)
    (by show (67108864 : Nat) ≤ 536870912; norm_num) rfl
    (by show (67108861 : Nat) < 67108864; norm_num)
    (by show (67108864 : Nat) < 67108861 + 4 + 1; norm_num)
    (by show (1 : Nat) ≤ 67108864 - 5; norm_num)
  refine ⟨⟨67108864, m, 67108861, 67108861⟩, _, _, hr, rfl,
    (by show (67108864 : Nat) < 67108861 + 4 + 1; norm_num), hpush, hpop, ?_, ?_⟩
  · show ((67108861 + 4 + 1 - 67108864 : Nat) == (67108861 + 4 + 1 : Nat)) = false
    decide
  · exact pop_err_at_lap (by show (67108861 + 4 + 1 : Nat) = (67108861 + 4 + 1 - 67108864) + 67108864; norm_num)
      (by norm_num)

lemma encFrame_length (f : List Nat) : (encFrame f).length = 4 + f.length := by
  rw [encFrame, List.length_append, transform_length]

lemma encAll_cons (f : List Nat) (fs : List (List Nat)) :
    encAll (f :: fs) = encFrame f ++ encAll fs := rfl

lemma encAll_pos {fs : List (List Nat)} (h : fs ≠ []) : 4 ≤ (encAll fs).length := by
  cases fs with
  | nil => exact absurd rfl h
  | cons f rest =>
    rw [encAll_cons, List.length_append, encFrame_length]
    omega

/-- Writing one frame at the end of the already-encoded region extends the
pointwise agreement of the byte store with the flat encoding. -/
lemma mem_invariant_extend {cap : Nat} {m : Nat → Nat} {pre f : List Nat}
    (hm : ∀ i, i < pre.length → m i = pre.getD i 0)
    (hfit : pre.length + 4 + f.length < cap) :
    ∀ i, i < pre.length + 4 + f.length →
      writeBytes (writeBytes m cap pre.length (transform_u32_to_array_of_u8 f.length))
        cap (pre.length + 4) f i = (pre ++ encFrame f).getD i 0 := by
  intro i hi
  by_cases h1 : i < pre.length
  · rw [writeBytes_miss f _ (pre.length + 4) i (fun j hj => by
        rw [Nat.mod_eq_of_lt (by omega)]
        omega),
      writeBytes_miss (transform_u32_to_array_of_u8 f.length) _ pre.length i (fun j hj => by
        rw [transform_length] at hj
        rw [Nat.mod_eq_of_lt (by omega)]
        omega)]
    rw [hm i h1, List.getD_append _ _ _ _ h1]
  · by_cases h2 : i < pre.length + 4
    · have hv : writeBytes (writeBytes m cap pre.length (transform_u32_to_array_of_u8 f.length))
          cap (pre.length + 4) f ((pre.length + (i - pre.length)) % cap)
          = (transform_u32_to_array_of_u8 f.length).getD (i - pre.length) 0 :=
        mem_frame_read_pre (transform_length f.length) rfl
          (by show 4 + f.length ≤ cap; omega) (i - pre.length) (by omega)
      have e : (pre.length + (i - pre.length)) % cap = i := by
        rw [show pre.length + (i - pre.length) = i from by omega]
        exact Nat.mod_eq_of_lt (by omega)
      rw [e] at hv
      rw [hv]
      rw [List.getD_append_right _ _ _ _ (by omega)]
      rw [encFrame, List.getD_append _ _ _ _ (by rw [transform_length]; omega)]
    · have hv : writeBytes (writeBytes m cap pre.length (transform_u32_to_array_of_u8 f.length))
          cap (pre.length + 4) f ((pre.length + 4 + (i - pre.length - 4)) % cap)
          = f.getD (i - pre.length - 4) 0 :=
        mem_frame_read_pay rfl (by show 4 + f.length ≤ cap; omega)
          (i - pre.length - 4) (by omega)
      have e : (pre.length + 4 + (i - pre.length - 4)) % cap = i := by
        rw [show pre.length + 4 + (i - pre.length - 4) = i from by omega]
        exact Nat.mod_eq_of_lt (by omega)
      rw [e] at hv
      rw [hv]
      rw [List.getD_append_right _ _ _ _ (by omega)]
      rw [encFrame, List.getD_append_right _ _ _ _ (by rw [transform_length]; omega)]
      rw [transform_length]

/-- Pushing a list of frames from a state with `head = 0` and all content
below the wrap point: every push succeeds, `tail` advances by the flat
encoding's length, and the byte store agrees with the flat encoding. -/
lemma pushAll_spec {cap : Nat} :
    ∀ (fs : List (List Nat)) (m : Nat → Nat) (pre : List Nat),
      (∀ i, i < pre.length → m i = pre.getD i 0) →
      pre.length + (encAll fs).length + 1 ≤ cap →
      ∃ m2, pushAll (⟨cap, m, 0, pre.length⟩ : CBuffer) fs
          = .ok (List.replicate fs.length true,
            ⟨cap, m2, 0, pre.length + (encAll fs).length⟩)
        ∧ (∀ i, i < pre.length + (encAll fs).length →
            m2 i = (pre ++ encAll fs).getD i 0)
  | [], m, pre, hm, hb =>
    ⟨m, rfl, fun i hi => by
      show m i = (pre ++ ([] : List Nat)).getD i 0
      rw [List.append_nil]
      exact hm i (by simpa [encAll] using hi)⟩
  | f :: rest, m, pre, hm, hb => by
    have hlen : (encAll (f :: rest)).length
        = 4 + f.length + (encAll rest).length := by
      rw [encAll_cons, List.length_append, encFrame_length]
    have hpush := @push_ok_nowrap ⟨cap, m, 0, pre.length⟩ f (Nat.zero_le _)
      (by show pre.length + 4 + f.length ≤ cap; omega)
      (by show pre.length + 4 + f.length + 1 ≤ cap + 0; omega)
    have hminv := mem_invariant_extend hm
      (by show pre.length + 4 + f.length < cap; omega)
    have e1 : (pre ++ encFrame f).length = pre.length + 4 + f.length := by
      rw [List.length_append, encFrame_length]
      omega
    obtain ⟨m2, hrec, hmem⟩ := @pushAll_spec cap rest
      (writeBytes (writeBytes m cap pre.length (transform_u32_to_array_of_u8 f.length))
        cap (pre.length + 4) f)
      (pre ++ encFrame f)
      (fun i hi => by
        rw [e1] at hi
        exact hminv i hi)
      (by rw [e1]; omega)
    refine ⟨m2, ?_, ?_⟩
    · show (pushAll (⟨cap, m, 0, pre.length⟩ : CBuffer) (f :: rest)) = _
      rw [pushAll, hpush]
      simp only [Except.bind]
      rw [e1] at hrec
      rw [hrec]
      have e2 : pre.length + 4 + f.length + (encAll rest).length
          = pre.length + (encAll (f :: rest)).length := by omega
      rw [e2]
      rfl
    · intro i hi
      have e3 : pre ++ encAll (f :: rest) = (pre ++ encFrame f) ++ encAll rest := by
        rw [encAll_cons, List.append_assoc]
      rw [e3]
      apply hmem i
      rw [e1]
      omega

/-- Popping one frame per pushed frame from a fully-encoded region below the
wrap point returns exactly the payloads in order, provided the final frame's
payload is nonempty. -/
lemma popN_spec {cap : Nat} :
    ∀ (fs : List (List Nat)) (m : Nat → Nat) (H T : Nat),
      (∀ j, j < (encAll fs).length → m (H + j) = (encAll fs).getD j 0) →
      H + (encAll fs).length = T →
      T + 1 ≤ cap →
      cap < U32M →
      fs.getLast? ≠ some [] →
      popN (⟨cap, m, H, T⟩ : CBuffer) fs.length = .ok (fs.map some, ⟨cap, m, T, T⟩)
  | [], m, H, T, hs, hHT, hb, hU, hlast => by
    have hH : H = T := by simpa [encAll] using hHT
    subst hH
    rfl
  | f :: rest, m, H, T, hs, hHT, hb, hU, hlast => by
    have hU' : cap < 4294967296 := hU
    have hlen : (encAll (f :: rest)).length = 4 + f.length + (encAll rest).length := by
      rw [encAll_cons, List.length_append, encFrame_length]
    have hT : T = H + 4 + f.length + (encAll rest).length := by omega
    have hpos : f.length ≠ 0 ∨ rest ≠ [] := by
      cases rest with
      | nil =>
        left
        intro h0
        apply hlast
        rw [List.length_eq_zero.mp h0]
        exact List.getLast?_singleton []
      | cons g gs =>
        right
        simp
    have hstrict : H + 4 ≠ T := by
      rcases hpos with h | h
      · omega
      · have := encAll_pos h
        omega
    have hread4 : readBytes (⟨cap, m, H, T⟩ : CBuffer) H 4
        = .ok (transform_u32_to_array_of_u8 f.length) := by
      have h := readBytes_ok (c := ⟨cap, m, H, T⟩) (transform_u32_to_array_of_u8 f.length) H
        (fun i hi => by rw [transform_length] at hi; show H + i < 2 * cap; omega)
        (fun i hi => by
          rw [transform_length] at hi
          show m ((H + i) % cap) = _
          rw [Nat.mod_eq_of_lt (by omega)]
          rw [hs i (by omega)]
          rw [encAll_cons, List.getD_append _ _ _ _ (by rw [encFrame_length]; omega)]
          rw [encFrame, List.getD_append _ _ _ _ (by rw [transform_length]; omega)])
      rwa [transform_length] at h
    have hreadp : readBytes (⟨cap, m, H, T⟩ : CBuffer) (H + 4) f.length = .ok f :=
      readBytes_ok (c := ⟨cap, m, H, T⟩) f (H + 4)
        (fun i hi => by show H + 4 + i < 2 * cap; omega)
        (fun i hi => by
          show m ((H + 4 + i) % cap) = _
          rw [Nat.mod_eq_of_lt (by omega)]
          rw [show H + 4 + i = H + (4 + i) from by omega]
          rw [hs (4 + i) (by omega)]
          rw [encAll_cons, List.getD_append _ _ _ _ (by rw [encFrame_length]; omega)]
          rw [encFrame, List.getD_append_right _ _ _ _ (by rw [transform_length]; omega)]
          rw [transform_length]
          rw [show 4 + i - 4 = i from by omega])
    have hpop := @pop_ok_nowrap ⟨cap, m, H, T⟩ f.length
      (transform_u32_to_array_of_u8 f.length) f
      (by show H ≤ T; omega) (by show T ≤ cap; omega) hU
      (by show H + 4 + f.length ≤ T; omega) (by show H + 4 ≠ T; omega)
      hread4 (dec_small (by show f.length < 4294967296; omega)) hreadp
    have hlast' : rest.getLast? ≠ some [] := by
      cases rest with
      | nil => simp
      | cons g gs =>
        rw [List.getLast?_cons_cons] at hlast
        exact hlast
    have hrec := @popN_spec cap rest m (H + 4 + f.length) T
      (fun j hj => by
        rw [show H + 4 + f.length + j = H + (4 + f.length + j) from by omega]
        rw [hs (4 + f.length + j) (by omega)]
        rw [encAll_cons, List.getD_append_right _ _ _ _ (by rw [encFrame_length]; omega)]
        rw [encFrame_length]
        rw [show 4 + f.length + j - (4 + f.length) = j from by omega])
      (by omega) hb hU hlast'
    show popN (⟨cap, m, H, T⟩ : CBuffer) (rest.length + 1) = _
    rw [popN, hpop]
    simp only [Except.bind]
    rw [hrec]
    rfl

/-- C2 (amended): for every sequence of frames, each of on-wire size at most
`N - 5` and of cumulative on-wire size at most `N - 1`, pushing them all
from the freshly constructed ring and then popping once per frame delivers
exactly the payloads, in order, with no loss, duplication, truncation or
corruption, leaving the ring empty — provided the final frame's payload is
nonempty (a trailing zero-length frame is silently consumed and reported as
`None`; see the counterexample). -/
theorem c2_fifo_roundtrip {s : BufferSize} {fs : List (List Nat)}
    (_hfr : ∀ f ∈ fs, 4 + f.length ≤ s.bytes - 5)
    (hsum : (encAll fs).length ≤ s.bytes - 1)
    (hlast : fs.getLast? ≠ some []) :
    roundTrip (channel s) fs
      = .ok (List.replicate fs.length true, fs.map some, true) := by
  obtain ⟨hL, hU⟩ := admissible_bounds ⟨s, rfl⟩
  obtain ⟨m2, hpush, hmem⟩ := @pushAll_spec s.bytes fs (fun _ => 0) []
    (fun i hi => absurd hi (by simp))
    (by show ([] : List Nat).length + (encAll fs).length + 1 ≤ s.bytes; simp; omega)
  simp only [List.length_nil, Nat.zero_add, List.nil_append] at hpush hmem
  have hpush2 : pushAll (channel s) fs
      = .ok (List.replicate fs.length true,
        ⟨s.bytes, m2, 0, (encAll fs).length⟩) := hpush
  have hrec := @popN_spec s.bytes fs m2 0 (encAll fs).length
    (fun j hj => by rw [Nat.zero_add]; exact hmem j hj)
    (by omega) (by omega) (by show s.bytes < 4294967296; omega) hlast
  rw [roundTrip, hpush2]
  simp only [Except.bind]
  rw [hrec]
  show Except.ok (List.replicate fs.length true, List.map some fs,
    (⟨s.bytes, m2, (encAll fs).length, (encAll fs).length⟩ : CBuffer).is_empty) = _
  rw [is_empty_true rfl]

theorem c2_fifo_roundtrip_witness :
    roundTrip (channel .Buf64M) [[1, 2], [3]]
      = .ok (List.replicate 2 true, [some [1, 2], some [3]], true) :=
  c2_fifo_roundtrip
    (by intro f hf; fin_cases hf <;> norm_num [BufferSize.bytes])
    (by show (11 : Nat) ≤ BufferSize.bytes .Buf64M - 1; norm_num [BufferSize.bytes])
    (by simp)

/-- C2 (as stated, refuted): with a trailing zero-length frame the claim
fails.  Pushing the single empty frame succeeds, but the pop consumes its
4-byte length prefix and then reports `None` instead of delivering the
empty payload: the round trip yields `[none]`, not `[some []]`. -/
theorem c2_trailing_empty_cex :
    roundTrip (channel .Buf64M) [[]] = .ok ([true], [none], true) := rfl

/-- C3: the claim says a push makes exactly one publication of `tail`,
after the entire frame (length prefix and payload) is written, so a
consumer that observes a published `tail` always finds a complete frame.
The code's `push` publishes `tail` twice — once inside `offer(&l)` after
only the 4-byte prefix, and once inside `offer(data)` — and `push`
factors exactly through that intermediate state.  A pop interleaved at the
first publication observes `tail = 4` with no payload present: it consumes
the length prefix, advances `head` to 4, and returns `None` — a torn
frame. -/
theorem c3_double_tail_publication_bug : ∃ (c1 c2 c3 : CBuffer),
    (channel .Buf64M).offer
      (transform_u32_to_array_of_u8 ([1, 2, 3, 4, 5] : List Nat).length)
      = .ok (true, c1) ∧
    c1.offer [1, 2, 3, 4, 5] = .ok (true, c2) ∧
    (channel .Buf64M).push [1, 2, 3, 4, 5] = .ok (true, c2) ∧
    (channel .Buf64M).tail = 0 ∧ c1.tail = 4 ∧ c2.tail = 9 ∧
    c1.pop = .ok (none, c3) ∧ c3.head = 4 := by
  refine ⟨_, _, _, rfl, rfl, rfl, rfl, rfl, rfl, rfl, rfl⟩

/-- C4: a zero-length push succeeds and consumes exactly 4 bytes of ring
space (that part of the claim holds), but the subsequent pop of the frame
returns `None` — reporting the queue empty instead of delivering the empty
payload — while still silently consuming the frame: after `poll(4)` eats
the prefix, `poll(0)` finds `head = tail` and bails out. -/
theorem c4_zero_length_pop_bug : ∃ (c1 c2 : CBuffer),
    (channel .Buf64M).push [] = .ok (true, c1) ∧
    c1.used = .ok 4 ∧ c1.tail = 4 ∧
    c1.pop = .ok (none, c2) ∧
    c2.head = 4 ∧ c2.is_empty = true := by
  refine ⟨_, _, rfl, rfl, rfl, rfl, rfl, rfl⟩

lemma offer_ok_exists {c : CBuffer} {data : List Nat} {un : Nat}
    (hun : c.unused = .ok un) (hgt : data.length < un) :
    ∃ c', c.offer data = .ok (true, c') := by
  rcases le_or_lt (c.tail + data.length) c.capacity with h | h
  · exact ⟨_, offer_ok_nowrap hun hgt h⟩
  · exact ⟨_, offer_ok_wrap hun hgt h⟩

lemma push_ok_exists {c : CBuffer} {data : List Nat} {un : Nat}
    (hh : c.head < c.capacity) (ht : c.tail < c.capacity)
    (hun : c.unused = .ok un) (hgt : data.length + 4 < un) :
    ∃ c', c.push data = .ok (true, c') := by
  obtain ⟨cap, m, hd, tl⟩ := c
  simp only at hh ht
  rw [push_eq_offers hun (by omega)]
  have hunc : un ≤ cap := by
    rcases le_or_lt hd tl with hcase | hcase
    · have hun' := unused_of_le (c := ⟨cap, m, hd, tl⟩) hcase (Nat.le_of_lt ht)
      have hv := Except.ok.inj (hun.symm.trans hun')
      simp only [] at hv
      omega
    · have hun' := unused_of_gt (c := ⟨cap, m, hd, tl⟩) hcase (by show hd - tl ≤ cap; omega)
      have hv := Except.ok.inj (hun.symm.trans hun')
      simp only [] at hv
      omega
  rcases le_or_lt hd tl with hcase | hcase
  · -- head ≤ tail: un = cap - (tl - hd)
    have hun' := unused_of_le (c := ⟨cap, m, hd, tl⟩) hcase (Nat.le_of_lt ht)
    have hv := Except.ok.inj (hun.symm.trans hun')
    simp only [] at hv
    rcases le_or_lt (tl + 4) cap with hw | hw
    · rw [offer_ok_nowrap hun (by rw [transform_length]; omega)
        (by rw [transform_length]; show tl + 4 ≤ cap; omega)]
      simp only [Except.bind, transform_length]
      have hun2 : (⟨cap, writeBytes m cap tl (transform_u32_to_array_of_u8 data.length),
          hd, tl + 4⟩ : CBuffer).unused = .ok (cap - (tl + 4 - hd)) :=
        unused_of_le (by show hd ≤ tl + 4; omega) (by show tl + 4 ≤ cap; omega)
      exact offer_ok_exists hun2 (by omega)
    · rw [offer_ok_wrap hun (by rw [transform_length]; omega)
        (by rw [transform_length]; show cap < tl + 4; omega)]
      simp only [Except.bind, transform_length]
      have e1 : (tl + 4) % cap = tl + 4 - cap := mod_of_lt_two (by omega) (by omega)
      rw [e1]
      rcases le_or_lt hd (tl + 4 - cap) with hc2 | hc2
      · have hun2 : (⟨cap, writeBytes m cap tl (transform_u32_to_array_of_u8 data.length),
            hd, tl + 4 - cap⟩ : CBuffer).unused = .ok (cap - (tl + 4 - cap - hd)) :=
          unused_of_le (by show hd ≤ tl + 4 - cap; omega) (by show tl + 4 - cap ≤ cap; omega)
        exact offer_ok_exists hun2 (by omega)
      · have hun2 : (⟨cap, writeBytes m cap tl (transform_u32_to_array_of_u8 data.length),
            hd, tl + 4 - cap⟩ : CBuffer).unused = .ok (hd - (tl + 4 - cap)) :=
          unused_of_gt (by show tl + 4 - cap < hd; omega)
            (by show hd - (tl + 4 - cap) ≤ cap; omega)
        exact offer_ok_exists hun2 (by omega)
  · -- tail < head: un = hd - tl, and un > data.length + 4 forces hd > tl + 4
    have hun' := unused_of_gt (c := ⟨cap, m, hd, tl⟩) hcase (by show hd - tl ≤ cap; omega)
    have hv := Except.ok.inj (hun.symm.trans hun')
    simp only [] at hv
    have hw : tl + 4 ≤ cap := by omega
    rw [offer_ok_nowrap hun (by rw [transform_length]; omega)
      (by rw [transform_length]; show tl + 4 ≤ cap; omega)]
    simp only [Except.bind, transform_length]
    have hun2 : (⟨cap, writeBytes m cap tl (transform_u32_to_array_of_u8 data.length),
        hd, tl + 4⟩ : CBuffer).unused = .ok (hd - (tl + 4)) :=
      unused_of_gt (by show tl + 4 < hd; omega) (by show hd - (tl + 4) ≤ cap; omega)
    exact offer_ok_exists hun2 (by omega)

/-- C5: over the spec's own state space (`head, tail ∈ [0, N)`), the free
space query succeeds with some `free ≤ N`, `push` returns `false` exactly
when `free ≤ S + 4`, a rejected push leaves the state untouched (the same
`CBuffer` is returned), and any payload of size `N - 4` or larger is always
rejected. -/
theorem c5_push_rejection {c : CBuffer} {data : List Nat}
    (hh : c.head < c.capacity) (ht : c.tail < c.capacity) :
    ∃ un, c.unused = .ok un ∧ un ≤ c.capacity ∧
      (c.push data = .ok (false, c) ↔ un ≤ data.length + 4) ∧
      (c.capacity - 4 ≤ data.length → c.push data = .ok (false, c)) := by
  have hex : ∃ un, c.unused = .ok un ∧ un ≤ c.capacity := by
    rcases le_or_lt c.head c.tail with hcase | hcase
    · exact ⟨_, unused_of_le hcase (Nat.le_of_lt ht), by omega⟩
    · refine ⟨_, unused_of_gt hcase (by omega), by omega⟩
  obtain ⟨un, hun, hunc⟩ := hex
  refine ⟨un, hun, hunc, ⟨?_, fun h => push_fail hun h⟩, fun h => push_fail hun (by omega)⟩
  intro hfalse
  by_contra hgt
  obtain ⟨c', htrue⟩ := @push_ok_exists c data un hh ht hun (by omega)
  rw [hfalse] at htrue
  simp at htrue

theorem c5_push_rejection_witness :
    ∃ un, (channel .Buf64M).unused = .ok un ∧ un ≤ (channel .Buf64M).capacity ∧
      ((channel .Buf64M).push [1, 2] = .ok (false, channel .Buf64M)
        ↔ un ≤ ([1, 2] : List Nat).length + 4) ∧
      ((channel .Buf64M).capacity - 4 ≤ ([1, 2] : List Nat).length →
        (channel .Buf64M).push [1, 2] = .ok (false, channel .Buf64M)) :=
  c5_push_rejection (by show (0 : Nat) < 67108864; norm_num)
    (by show (0 : Nat) < 67108864; norm_num)

/-- C8 (as stated, refuted): the claim describes a blocking `push` that
retries with a ~5 µs sleep until success and so never reports failure.
The code's `Sender::push` is a single attempt: on a nearly-full ring it
returns `false` immediately, with no retry and no sleep. -/
theorem c8_blocking_push_cex :
    Sender.push (⟨67108864, fun _ => 0, 0, 67108861⟩ : CBuffer) [7]
      = .ok (false, (⟨67108864, fun _ => 0, 0, 67108861⟩ : CBuffer)) := rfl

/-- C8 (amended): each endpoint exposes exactly one operation, a single
non-blocking attempt: `Sender::push` delegates to `CBuffer::push` and
returns its `bool` as-is (so it can report failure), and `Receiver::pop`
delegates to `CBuffer::pop`; no `try_*`/blocking-with-backoff variants
exist in the code. -/
theorem c8_single_attempt_endpoints :
    (∀ (c : CBuffer) (elem : List Nat), Sender.push c elem = c.push elem) ∧
    (∀ c : CBuffer, Receiver.pop c = c.pop) :=
  ⟨fun _ _ => rfl, fun _ => rfl⟩

/-- C9: immediately after construction with any of the four admissible
sizes, `size()` returns exactly the chosen capacity in bytes (134217728
for 128 MiB), `used()` returns 0, and the first `pop` on the fresh queue
reports empty without touching the state. -/
theorem c9_fresh_construction (s : BufferSize) :
    (CBuffer.with_capacity s).size = s.bytes ∧
    (CBuffer.with_capacity s).used = .ok 0 ∧
    (CBuffer.with_capacity s).pop = .ok (none, CBuffer.with_capacity s) ∧
    BufferSize.bytes .Buf128M = 134217728 :=
  ⟨rfl, rfl, rfl, rfl⟩

/-- C10: each operation mutates only its own cursor: every `push`
(successful or rejected) leaves `head` and `capacity` unchanged, and every
`pop` (successful or empty) leaves `tail` and `capacity` unchanged. -/
theorem c10_frame_effects {c c1 c2 : CBuffer} {data : List Nat} {b : Bool}
    {r : Option (List Nat)}
    (hpush : c.push data = .ok (b, c1)) (hpop : c.pop = .ok (r, c2)) :
    c1.head = c.head ∧ c1.capacity = c.capacity ∧
    c2.tail = c.tail ∧ c2.capacity = c.capacity :=
  ⟨(push_preserves hpush).2, (push_preserves hpush).1,
   (pop_preserves hpop).2, (pop_preserves hpop).1⟩

theorem c10_frame_effects_witness :
    (⟨67108864, writeBytes (writeBytes (fun _ => 0) 67108864 0 [1, 0, 0, 0]) 67108864 4 [1],
      0, 5⟩ : CBuffer).head = (channel .Buf64M).head ∧
    (⟨67108864, writeBytes (writeBytes (fun _ => 0) 67108864 0 [1, 0, 0, 0]) 67108864 4 [1],
      0, 5⟩ : CBuffer).capacity = (channel .Buf64M).capacity ∧
    (channel .Buf64M).tail = (channel .Buf64M).tail ∧
    (channel .Buf64M).capacity = (channel .Buf64M).capacity :=
  c10_frame_effects
    (rfl : (channel .Buf64M).push [1] = .ok (true,
      (⟨67108864, writeBytes (writeBytes (fun _ => 0) 67108864 0 [1, 0, 0, 0]) 67108864 4 [1],
        0, 5⟩ : CBuffer)))
    (rfl : (channel .Buf64M).pop = .ok (none, channel .Buf64M))
